import Mathlib

/-!
# K-Means optimizer: formal model and verification

This development embeds the from-scratch K-Means implementation of the
clustering notebook (`src/.ipynb_checkpoints/01-Clustering-checkpoint.ipynb`):
`cluster_centers` (random initialization), `closest` (nearest-center
assignment), `new_centers` (centroid update) and `kMeans` (the convergence
loop), and settles the specification's claims about them.

Embedding conventions.  Real-number arithmetic is embedded over `ℚ`, which is
exact for the operations involved (sums, differences, squares, division by a
count).  The code only ever uses Euclidean norms inside comparisons — the
`np.argmin` over distances and the `Delta > .001` test — and comparing norms
is the same as comparing their squares, so the embedding works with squared
distances throughout.  `numpy` exceptions (the broadcasting `ValueError` on a
shrunken center set, `np.random.choice` on an empty range) are embedded as
`Except` errors; the NaN rows produced by `.mean(axis=0)` on an empty
selection are embedded as `none`; and the one loop branch where the program
keeps going with NaN-poisoned centers (a single NaN center row makes `Delta`
NaN, the comparison `nan > .001` is false, and the loop exits carrying the
NaN row) is reported as an explicit `nanDelta` error, because IEEE NaN
propagation has no counterpart in exact rational arithmetic.  The injected
`draws` function stands for the process-wide random generator:
`np.random.choice(len(X), size=K)` consumes `K` uniform draws over
`[0, len(X))`, modelled as `draws t % len(X)`.
-/

namespace KMeansModel

/-- A point: one row of the dataset array `X`, an ordered tuple of reals of
the ambient dimension, embedded as a list of rationals. -/
abbrev Point := List ℚ

/-- Squared Euclidean distance `Σ_d (p_d − q_d)²`: the square of an entry of
the `np.linalg.norm(X - centers[:, np.newaxis, :], axis=2)` array computed in
`closest`.  The code only compares these norms, and comparisons of norms and
of squared norms agree. -/
def sqDist (p q : Point) : ℚ :=
  (List.zipWith (fun a b => (a - b) ^ 2) p q).sum

/-- First index attaining the minimum of a list: `np.argmin`, which returns
the first occurrence of the minimum; `0` on the empty list. -/
def argminIdx : List ℚ → Nat
  | [] => 0
  | [_] => 0
  | x :: y :: rest =>
    if x ≤ (y :: rest).getD (argminIdx (y :: rest)) 0 then 0
    else argminIdx (y :: rest) + 1

/-- The numpy failure modes of the notebook code: `valueError` for the
broadcasting shape mismatch raised by `moved - centers` after the center set
shrinks by two or more rows (and for `np.random.choice` on an empty dataset),
and `nanDelta` for the branch where a lone NaN center row makes `Delta` NaN,
after which the program continues with NaN-poisoned values — inexpressible
over `ℚ`, hence reported as an error by the embedding. -/
inductive NumpyError where
  | valueError
  | nanDelta
deriving DecidableEq

/-- `cluster_centers(X, K)`, i.e. `X[np.random.choice(len(X), size=K)]`: `K`
rows of `X` at indices drawn with replacement from `[0, len(X))`.  The code
performs no validation of `K`: any `K`, including `K = 0` and
`K > len(X)`, is accepted; the only failure is `np.random.choice` raising
`ValueError` when `len(X) = 0`. -/
def cluster_centers (X : List Point) (K : Nat) (draws : Nat → Nat) :
    Except NumpyError (List Point) :=
  if X.length = 0 then .error .valueError
  else .ok ((List.range K).map (fun t => X.getD (draws t % X.length) []))

/-- `closest(X, centers)`: for each point of `X`, the `np.argmin`
(first-occurrence, hence lowest index) over its distances to the centers —
embedded with squared distances, whose ordering is that of the Euclidean
distances the code computes. -/
def closest (X : List Point) (cs : List Point) : List Nat :=
  X.map (fun p => argminIdx (cs.map (fun c => sqDist p c)))

/-- The selection `X[c == k]`: the dataset rows whose label is `k`, in
order. -/
def clusterPoints (X : List Point) (c : List Nat) (k : Nat) : List Point :=
  (List.zip X c).filterMap (fun pl => if pl.2 = k then some pl.1 else none)

/-- `.mean(axis=0)` of a selection of rows: the componentwise arithmetic
mean, the ambient dimension taken from the first row; `none` (numpy's all-NaN
row, emitted with a `RuntimeWarning`) on an empty selection. -/
def meanPoint : List Point → Option Point
  | [] => none
  | p :: rest =>
    some ((List.range p.length).map (fun d =>
      ((p :: rest).map (fun q => q.getD d 0)).sum / ((p :: rest).length : ℚ)))

/-- The comprehension inside `new_centers` applied to a label array `c`: with
`K = len(np.unique(c))` — the number of distinct labels — it builds
`np.array([X[c==k].mean(axis=0) for k in range(K)])`. -/
def mean_rows (X : List Point) (c : List Nat) : List (Option Point) :=
  (List.range c.dedup.length).map (fun k => meanPoint (clusterPoints X c k))

/-- `new_centers(X, centers)`: recompute the assignment
`c = closest(X, centers)`, then return the mean of each cluster `k` for `k`
ranging below the number of distinct labels of `c`.  When some cluster index
receives no point the row count silently shrinks below the old `K`, and
missing low labels produce NaN (`none`) rows; no error is raised here. -/
def new_centers (X : List Point) (centers : List Point) : List (Option Point) :=
  mean_rows X (closest X centers)

/-- Collects a list of optional rows into a list of points when every row is
defined; `none` as soon as one row is a NaN row. -/
def allSome : List (Option Point) → Option (List Point)
  | [] => some []
  | none :: _ => none
  | some p :: rest => (allSome rest).map (fun l => p :: l)

/-- Squared Euclidean norm of the difference of two equally-shaped center
arrays treated as flattened vectors: the square of
`np.linalg.norm(moved - centers)`, the loop's `Delta`. -/
def sqNormDiff (cs ds : List Point) : ℚ :=
  (List.zipWith sqDist cs ds).sum

/-- The square of the convergence tolerance hardcoded in the `kMeans` loop:
the loop continues while `Delta > .001`, i.e. while `Delta² > (1/1000)²` in
the embedding. -/
def tolSq : ℚ := 1 / 1000000

/-- The `while` loop of `kMeans`, with `fuel = max_iter - iteration` passes
allowed by the `iteration < max_iter` guard.  Each pass computes
`moved = new_centers(X, centers)` and `Delta = np.linalg.norm(moved -
centers)`, increments `iteration`, and replaces `centers` by `moved`; the
loop re-enters while `Delta > .001`.  When the shapes of `moved` and
`centers` agree, `Delta` is the flattened norm of the difference.  When
`moved` shrank to a single defined row, numpy broadcasts the subtraction, so
`Delta²` is the sum of the squared distances of that row to every old center.
When `moved` shrank to two or more rows, `moved - centers` raises
`ValueError`.  When `moved` is a single NaN row, `Delta` is NaN, the
comparison `nan > .001` is false, and the program would continue with
NaN-poisoned centers — reported as `nanDelta`.  The returned `Nat` is the
final value of the loop counter `iteration` (counting completed passes also
when a pass fails partway). -/
def kMeansLoop (X : List Point) :
    Nat → List Point → Nat → Except NumpyError (List Point) × Nat
  | 0, centers, iteration => (.ok centers, iteration)
  | fuel + 1, centers, iteration =>
    match allSome (new_centers X centers) with
    | some moved =>
      if moved.length = centers.length then
        if sqNormDiff moved centers ≤ tolSq then (.ok moved, iteration + 1)
        else kMeansLoop X fuel moved (iteration + 1)
      else if moved.length = 1 then
        if (centers.map (fun c => sqDist (moved.getD 0 []) c)).sum ≤ tolSq then
          (.ok moved, iteration + 1)
        else kMeansLoop X fuel moved (iteration + 1)
      else (.error .valueError, iteration)
    | none =>
      if (new_centers X centers).length = 1 then (.error .nanDelta, iteration)
      else (.error .valueError, iteration)

/-- `kMeans(X, K, max_iter)`: initialize random centers, run the update loop,
print the iteration count, then `labels = closest(X, centers)` and
`return centers, labels` — the returned value is this **pair**; the iteration
count appears only in the print (see `kMeansPrintedIterations`). -/
def kMeans (X : List Point) (K maxIter : Nat) (draws : Nat → Nat) :
    Except NumpyError (List Point × List Nat) :=
  match cluster_centers X K draws with
  | .error e => .error e
  | .ok cs0 =>
    match kMeansLoop X maxIter cs0 0 with
    | (.ok cs, _) => .ok (cs, closest X cs)
    | (.error e, _) => .error e

/-- The iteration count that `kMeans` prints
(`print('Iterations to converge: ', iteration)`) on a run that reaches the
print statement; it is not part of the value `kMeans` returns. -/
def kMeansPrintedIterations (X : List Point) (K maxIter : Nat)
    (draws : Nat → Nat) : Except NumpyError Nat :=
  match cluster_centers X K draws with
  | .error e => .error e
  | .ok cs0 =>
    match kMeansLoop X maxIter cs0 0 with
    | (.ok _, n) => .ok n
    | (.error e, _) => .error e

/-- Total within-cluster sum of squared distances of a dataset under a label
array and a center set: the K-Means objective `f(S)` stated in the
notebook. -/
def ssd (X : List Point) (c : List Nat) (cs : List Point) : ℚ :=
  ((List.zip X c).map (fun pl => sqDist pl.1 (cs.getD pl.2 []))).sum

/-- Sum of squared distances of a list of points to a single center. -/
def clusterCost (ps : List Point) (c : Point) : ℚ :=
  (ps.map (fun p => sqDist p c)).sum

/-! ## Properties of the first-argmin -/

/-- The first argmin of a non-empty list is a valid index. -/
lemma argminIdx_lt_length : ∀ (l : List ℚ), l ≠ [] → argminIdx l < l.length
  | [], h => absurd rfl h
  | [_], _ => by simp [argminIdx]
  | x :: y :: rest, _ => by
    have ih := argminIdx_lt_length (y :: rest) (by simp)
    rw [argminIdx]
    split
    · simp
    · simpa using Nat.succ_lt_succ ih

/-- The value at the first argmin is a lower bound for every entry. -/
lemma argminIdx_le : ∀ (l : List ℚ) (j : Nat), j < l.length →
    l.getD (argminIdx l) 0 ≤ l.getD j 0
  | [], j, h => by simp at h
  | [x], j, h => by
    have : j = 0 := by simpa using h
    subst this
    simp [argminIdx]
  | x :: y :: rest, j, h => by
    have ih := fun (j' : Nat) (h' : j' < (y :: rest).length) => argminIdx_le (y :: rest) j' h'
    rw [argminIdx]
    split
    · cases j with
      | zero => simp
      | succ j' =>
        have hj' : j' < (y :: rest).length := by simpa using h
        calc x ≤ (y :: rest).getD (argminIdx (y :: rest)) 0 := by assumption
        _ ≤ (y :: rest).getD j' 0 := ih j' hj'
        _ = (x :: y :: rest).getD (j' + 1) 0 := by simp
    · rename_i hx
      push_neg at hx
      have hk := argminIdx_lt_length (y :: rest) (by simp)
      cases j with
      | zero =>
        simpa using le_of_lt hx
      | succ j' =>
        have hj' : j' < (y :: rest).length := by simpa using h
        simpa using ih j' hj'

/-- Entries strictly before the first argmin are strictly larger: the argmin
is the first occurrence of the minimum (lowest-index tie-break). -/
lemma argminIdx_first : ∀ (l : List ℚ) (j : Nat), j < argminIdx l →
    l.getD (argminIdx l) 0 < l.getD j 0
  | [], j, h => by simp [argminIdx] at h
  | [_], j, h => by simp [argminIdx] at h
  | x :: y :: rest, j, h => by
    have ih := fun (j' : Nat) (h' : j' < argminIdx (y :: rest)) => argminIdx_first (y :: rest) j' h'
    rw [argminIdx] at h ⊢
    split
    · rename_i hx
      rw [if_pos hx] at h
      simp at h
    · rename_i hx
      rw [if_neg hx] at h
      push_neg at hx
      cases j with
      | zero => simpa using hx
      | succ j' =>
        have hj' : j' < argminIdx (y :: rest) := by omega
        simpa using ih j' hj'

/-! ## Indexing helpers -/

/-- `getD` through `map` at an in-range index. -/
lemma getD_map_of_lt {α β : Type} (f : α → β) (l : List α) (j : Nat)
    (dα : α) (dβ : β) (h : j < l.length) :
    (l.map f).getD j dβ = f (l.getD j dα) := by
  rw [List.getD_eq_getElem?_getD, List.getD_eq_getElem?_getD, List.getElem?_map,
    List.getElem?_eq_getElem h]
  simp

/-- `getD` through a map over `List.range` at an in-range index. -/
lemma getD_map_range {β : Type} (f : Nat → β) (n j : Nat) (d : β) (h : j < n) :
    ((List.range n).map f).getD j d = f j := by
  rw [getD_map_of_lt f (List.range n) j 0 d (by simpa using h)]
  congr 1
  rw [List.getD_eq_getElem?_getD, List.getElem?_eq_getElem (by simpa using h)]
  simp

/-! ## Properties of `closest` -/

/-- `closest` produces one label per dataset point. -/
lemma closest_length (dataset cs : List Point) :
    (closest dataset cs).length = dataset.length := by
  simp [closest]

/-- Labels produced by `closest` index into the center set. -/
lemma closest_entry_lt (dataset cs : List Point) (hcs : cs ≠ []) :
    ∀ x ∈ closest dataset cs, x < cs.length := by
  intro x hx
  simp only [closest, List.mem_map] at hx
  obtain ⟨p, _, rfl⟩ := hx
  have := argminIdx_lt_length (cs.map (fun c => sqDist p c)) (by simpa using hcs)
  simpa using this

/-- The label of point `i` under `closest` is the first argmin of the list of
squared distances to the centers. -/
lemma closest_getD (dataset cs : List Point) (i : Nat) (h : i < dataset.length) :
    (closest dataset cs).getD i 0 =
      argminIdx (cs.map (fun c => sqDist (dataset.getD i []) c)) := by
  rw [closest, getD_map_of_lt _ dataset i [] 0 h]

/-! ## Properties of `clusterPoints` and label counting -/

/-- Unfolding `clusterPoints` on a leading point/label pair. -/
lemma clusterPoints_cons (p : Point) (ps : List Point) (l : Nat) (ls : List Nat)
    (j : Nat) :
    clusterPoints (p :: ps) (l :: ls) j =
      if l = j then p :: clusterPoints ps ls j else clusterPoints ps ls j := by
  by_cases h : l = j <;> simp [clusterPoints, h]

/-- A cluster is empty exactly when its label never occurs, provided every
label is paired with a dataset point. -/
lemma clusterPoints_nil_iff : ∀ (dataset : List Point) (a : List Nat) (j : Nat),
    a.length ≤ dataset.length → (clusterPoints dataset a j = [] ↔ j ∉ a)
  | _, [], j, _ => by simp [clusterPoints]
  | [], _ :: _, _, h => by simp at h
  | p :: ps, l :: ls, j, h => by
    have ih := clusterPoints_nil_iff ps ls j (by simpa using h)
    rw [clusterPoints_cons]
    by_cases hl : l = j
    · simp [hl]
    · simp only [if_neg hl, ih, List.mem_cons]
      constructor
      · intro hj hc
        rcases hc with hc | hc
        · exact hl hc.symm
        · exact hj hc
      · intro hj hc
        exact hj (Or.inr hc)

/-- Every point of a cluster is a point of the dataset. -/
lemma clusterPoints_subset (dataset : List Point) (a : List Nat) (j : Nat) :
    ∀ p ∈ clusterPoints dataset a j, p ∈ dataset := by
  intro p hp
  simp only [clusterPoints, List.mem_filterMap] at hp
  obtain ⟨⟨q, l⟩, hmem, hq⟩ := hp
  by_cases hl : l = j
  · rw [if_pos hl, Option.some.injEq] at hq
    exact hq ▸ (List.of_mem_zip hmem).1
  · rw [if_neg hl] at hq
    exact absurd hq (by simp)

/-- If every label is below `K` and label `j < K` is missing, the number of
distinct labels is strictly below `K`. -/
lemma dedup_length_lt (a : List Nat) (K j : Nat) (hbound : ∀ x ∈ a, x < K)
    (hj : j < K) (hmiss : j ∉ a) : a.dedup.length < K := by
  have hsub : a.toFinset ⊆ (Finset.range K).erase j := by
    intro x hx
    rw [List.mem_toFinset] at hx
    exact Finset.mem_erase.mpr ⟨fun h => hmiss (h ▸ hx), Finset.mem_range.mpr (hbound x hx)⟩
  have hle := Finset.card_le_card hsub
  rw [List.card_toFinset] at hle
  have hcard : ((Finset.range K).erase j).card = K - 1 := by
    rw [Finset.card_erase_of_mem (Finset.mem_range.mpr hj), Finset.card_range]
  omega

/-- If every label is below `K` and every index below `K` occurs as a label,
the number of distinct labels is exactly `K`. -/
lemma dedup_length_eq (a : List Nat) (K : Nat) (hbound : ∀ x ∈ a, x < K)
    (hall : ∀ j, j < K → j ∈ a) : a.dedup.length = K := by
  have hset : a.toFinset = Finset.range K := by
    ext x
    simp only [List.mem_toFinset, Finset.mem_range]
    exact ⟨fun hx => hbound x hx, fun hx => hall x hx⟩
  rw [← List.card_toFinset, hset, Finset.card_range]

/-- Row `k` of the recompute comprehension is the mean of cluster `k`, for
`k` below the number of distinct labels. -/
lemma mean_rows_getD (X : List Point) (c : List Nat) (k : Nat)
    (h : k < c.dedup.length) :
    (mean_rows X c).getD k none = meanPoint (clusterPoints X c k) := by
  rw [mean_rows, getD_map_range _ _ _ _ h]

/-- The recompute comprehension returns one row per distinct label. -/
lemma mean_rows_length (X : List Point) (c : List Nat) :
    (mean_rows X c).length = c.dedup.length := by
  simp [mean_rows]

/-! ## Properties of `meanPoint` -/

/-- On a non-empty list of points of common dimension `D`, `meanPoint` is
defined, has dimension `D`, and its `d`-th coordinate is the column sum over
the list divided by the number of points. -/
lemma meanPoint_spec (ps : List Point) (D : Nat) (hne : ps ≠ [])
    (hdim : ∀ p ∈ ps, p.length = D) :
    ∃ m, meanPoint ps = some m ∧ m.length = D ∧
      ∀ d, d < D →
        m.getD d 0 = ((ps.map (fun q => q.getD d 0)).sum) / (ps.length : ℚ) := by
  match ps with
  | [] => exact absurd rfl hne
  | p :: rest =>
    have hp : p.length = D := hdim p (List.mem_cons_self _ _)
    refine ⟨_, rfl, ?_, ?_⟩
    · simp [hp]
    · intro d hd
      rw [hp]
      exact getD_map_range _ D d 0 hd

/-! ## Properties of `allSome` -/

/-- A successful collection has the same number of rows. -/
lemma allSome_length : ∀ (l : List (Option Point)) (v : List Point),
    allSome l = some v → v.length = l.length
  | [], v, h => by
    rw [allSome] at h
    simp only [Option.some.injEq] at h
    simp [← h]
  | none :: _, v, h => by rw [allSome] at h; exact absurd h (by simp)
  | some p :: t, v, h => by
    rw [allSome] at h
    cases ht : allSome t with
    | none => rw [ht] at h; exact absurd h (by simp)
    | some w =>
      rw [ht] at h
      simp only [Option.map_some', Option.some.injEq] at h
      have := allSome_length t w ht
      simp [← h, this]

/-- Rows of a successful collection: the `j`-th input row is `some` of the
`j`-th output row. -/
lemma allSome_getD : ∀ (l : List (Option Point)) (v : List Point),
    allSome l = some v → ∀ j, j < l.length → l.getD j none = some (v.getD j [])
  | [], v, _, j, hj => by simp at hj
  | none :: _, v, h, j, hj => by rw [allSome] at h; exact absurd h (by simp)
  | some p :: t, v, h, j, hj => by
    rw [allSome] at h
    cases ht : allSome t with
    | none => rw [ht] at h; exact absurd h (by simp)
    | some w =>
      rw [ht] at h
      simp only [Option.map_some', Option.some.injEq] at h
      cases j with
      | zero => simp [← h]
      | succ j' =>
        rw [← h]
        simp only [List.getD_cons_succ]
        exact allSome_getD t w ht j' (by simpa using hj)

/-- If every row is `some`, `allSome` succeeds. -/
lemma allSome_isSome : ∀ (l : List (Option Point)),
    (∀ j, j < l.length → l.getD j none ≠ none) → ∃ v, allSome l = some v
  | [], _ => ⟨[], rfl⟩
  | none :: t, h => by
    have := h 0 (by simp)
    simp at this
  | some p :: t, h => by
    obtain ⟨w, hw⟩ := allSome_isSome t (fun j hj => by
      have := h (j + 1) (by simpa using hj)
      simpa using this)
    exact ⟨p :: w, by rw [allSome, hw]; rfl⟩

/-! ## Nonnegativity and vanishing of squared distances -/

/-- Squared distances are nonnegative. -/
lemma sqDist_nonneg : ∀ (p q : Point), 0 ≤ sqDist p q
  | [], _ => by simp [sqDist]
  | _ :: _, [] => by simp [sqDist]
  | a :: p, b :: q => by
    have ih := sqDist_nonneg p q
    have hsq : (0:ℚ) ≤ (a - b) ^ 2 := sq_nonneg _
    simp only [sqDist, List.zipWith_cons_cons, List.sum_cons] at ih ⊢
    linarith

/-- A vanishing squared distance between points of equal dimension forces the
points to be equal. -/
lemma sqDist_eq_zero : ∀ (p q : Point), p.length = q.length → sqDist p q = 0 → p = q
  | [], [], _, _ => rfl
  | [], _ :: _, h, _ => by simp at h
  | _ :: _, [], h, _ => by simp at h
  | a :: p, b :: q, h, hz => by
    have hlen : p.length = q.length := by simpa using h
    have ht : 0 ≤ sqDist p q := sqDist_nonneg p q
    have hsq : (0:ℚ) ≤ (a - b) ^ 2 := sq_nonneg _
    simp only [sqDist, List.zipWith_cons_cons, List.sum_cons] at hz
    have h1 : (a - b) ^ 2 = 0 := by
      have : sqDist p q = (List.zipWith (fun a b => (a - b) ^ 2) p q).sum := rfl
      rw [← this] at hz
      linarith
    have hab : a = b := by
      have := pow_eq_zero_iff (n := 2) (by norm_num) |>.mp h1
      linarith [sub_eq_zero.mp this]
    have h2 : sqDist p q = 0 := by
      have : sqDist p q = (List.zipWith (fun a b => (a - b) ^ 2) p q).sum := rfl
      rw [this] at ht ⊢
      linarith
    rw [hab, sqDist_eq_zero p q hlen h2]

/-- The squared flattened norm of a difference of center sets is nonnegative. -/
lemma sqNormDiff_nonneg : ∀ (cs ds : List Point), 0 ≤ sqNormDiff cs ds
  | [], _ => by simp [sqNormDiff]
  | _ :: _, [] => by simp [sqNormDiff]
  | c :: cs, d :: ds => by
    have ih := sqNormDiff_nonneg cs ds
    have h := sqDist_nonneg c d
    simp only [sqNormDiff, List.zipWith_cons_cons, List.sum_cons] at ih ⊢
    linarith

/-- A vanishing centroid movement (`Δ = 0`) between center sets of matching
shape forces the center sets to be equal. -/
lemma sqNormDiff_eq_zero : ∀ (cs ds : List Point), cs.length = ds.length →
    (∀ i, i < ds.length → (cs.getD i []).length = (ds.getD i []).length) →
    sqNormDiff cs ds = 0 → cs = ds
  | [], [], _, _, _ => rfl
  | [], _ :: _, h, _, _ => by simp at h
  | _ :: _, [], h, _, _ => by simp at h
  | c :: cs, d :: ds, h, hdim, hz => by
    have hlen : cs.length = ds.length := by simpa using h
    have ht : 0 ≤ sqNormDiff cs ds := sqNormDiff_nonneg cs ds
    have hd := sqDist_nonneg c d
    simp only [sqNormDiff, List.zipWith_cons_cons, List.sum_cons] at hz
    have hfold : sqNormDiff cs ds = (List.zipWith sqDist cs ds).sum := rfl
    rw [← hfold] at hz
    have h1 : sqDist c d = 0 := by linarith
    have h2 : sqNormDiff cs ds = 0 := by linarith
    have hcd : c = d := sqDist_eq_zero c d (by simpa using hdim 0 (by simp)) h1
    have htail : cs = ds := sqNormDiff_eq_zero cs ds hlen
      (fun i hi => by simpa using hdim (i + 1) (by simpa using hi)) h2
    rw [hcd, htail]

/-! ## The mean minimizes the sum of squared deviations (scalar case) -/

/-- Expansion of a sum of squared deviations about an arbitrary pivot. -/
lemma sum_sq_sub_eq (xs : List ℚ) (c : ℚ) :
    (xs.map (fun x => (x - c) ^ 2)).sum =
      (xs.map (fun x => x ^ 2)).sum - 2 * c * xs.sum + (xs.length : ℚ) * c ^ 2 := by
  induction xs with
  | nil => simp
  | cons x xs ih =>
    simp only [List.map_cons, List.sum_cons, List.length_cons, ih]
    push_cast
    ring

/-- The arithmetic mean minimizes the sum of squared deviations over ℚ. -/
lemma mean_min_scalar (xs : List ℚ) (c : ℚ) (h : xs ≠ []) :
    (xs.map (fun x => (x - xs.sum / (xs.length : ℚ)) ^ 2)).sum ≤
      (xs.map (fun x => (x - c) ^ 2)).sum := by
  have hn : (0 : ℚ) < (xs.length : ℚ) := by
    have : 0 < xs.length := List.length_pos.mpr h
    exact_mod_cast this
  have hne : (xs.length : ℚ) ≠ 0 := ne_of_gt hn
  rw [sum_sq_sub_eq, sum_sq_sub_eq]
  have hkey : (0 : ℚ) ≤ ((xs.length : ℚ) * c - xs.sum) ^ 2 := sq_nonneg _
  have hexp : (xs.length : ℚ) * (xs.sum / (xs.length : ℚ)) ^ 2 =
      xs.sum ^ 2 / (xs.length : ℚ) := by
    field_simp
    ring
  have hlin : 2 * (xs.sum / (xs.length : ℚ)) * xs.sum =
      2 * xs.sum ^ 2 / (xs.length : ℚ) := by
    field_simp
    ring
  rw [hexp, hlin]
  rw [← sub_nonneg]
  have hdiff : (xs.map (fun x => x ^ 2)).sum - 2 * c * xs.sum + (xs.length : ℚ) * c ^ 2 -
      ((xs.map (fun x => x ^ 2)).sum - 2 * xs.sum ^ 2 / (xs.length : ℚ) +
        xs.sum ^ 2 / (xs.length : ℚ)) =
      ((xs.length : ℚ) * c - xs.sum) ^ 2 / (xs.length : ℚ) := by
    field_simp
    ring
  rw [hdiff]
  exact div_nonneg hkey (le_of_lt hn)

/-! ## Coordinatewise decomposition of squared distances -/

/-- Squared distance between points of common dimension `D`, coordinatewise. -/
lemma sqDist_eq_coords : ∀ (p c : Point) (D : Nat), p.length = D → c.length = D →
    sqDist p c = ∑ d in Finset.range D, (p.getD d 0 - c.getD d 0) ^ 2
  | [], [], 0, _, _ => by simp [sqDist]
  | [], b :: c, D, hp, hc => by simp at hp; subst hp; simp at hc
  | a :: p, [], D, hp, hc => by simp at hc; subst hc; simp at hp
  | a :: p, b :: c, D, hp, hc => by
    match D, hp with
    | Nat.succ D, hp =>
      have ih := sqDist_eq_coords p c D (by simpa using hp) (by simpa using hc)
      simp only [sqDist, List.zipWith_cons_cons, List.sum_cons] at ih ⊢
      rw [Finset.sum_range_succ']
      simp only [List.getD_cons_succ, List.getD_cons_zero]
      rw [← ih]
      ring

/-- Swap a list sum of `Finset` sums. -/
lemma list_sum_finset_swap (l : List Point) (D : Nat) (g : Point → Nat → ℚ) :
    (l.map (fun x => ∑ d in Finset.range D, g x d)).sum =
      ∑ d in Finset.range D, (l.map (fun x => g x d)).sum := by
  induction l with
  | nil => simp
  | cons x xs ih =>
    simp only [List.map_cons, List.sum_cons, ih, Finset.sum_add_distrib]

/-- The cost of a cluster decomposes into per-coordinate sums of squared
deviations. -/
lemma clusterCost_coords (ps : List Point) (c : Point) (D : Nat)
    (hdim : ∀ p ∈ ps, p.length = D) (hc : c.length = D) :
    clusterCost ps c =
      ∑ d in Finset.range D, (ps.map (fun p => (p.getD d 0 - c.getD d 0) ^ 2)).sum := by
  rw [clusterCost]
  rw [List.map_congr_left (fun p hp => sqDist_eq_coords p c D (hdim p hp) hc)]
  exact list_sum_finset_swap ps D (fun p d => (p.getD d 0 - c.getD d 0) ^ 2)

/-- The componentwise mean of a non-empty cluster minimizes the cluster cost
among all centers of the same dimension. -/
lemma clusterCost_mean_le (ps : List Point) (c : Point) (D : Nat)
    (hne : ps ≠ []) (hdim : ∀ p ∈ ps, p.length = D) (hc : c.length = D)
    (m : Point) (hm : meanPoint ps = some m) :
    clusterCost ps m ≤ clusterCost ps c := by
  obtain ⟨m', hm', hmlen, hmcoord⟩ := meanPoint_spec ps D hne hdim
  rw [hm] at hm'
  obtain rfl : m = m' := by injection hm'
  rw [clusterCost_coords ps m D hdim hmlen, clusterCost_coords ps c D hdim hc]
  refine Finset.sum_le_sum ?_
  intro d hd
  rw [Finset.mem_range] at hd
  have hxs : ps.map (fun q => q.getD d 0) ≠ [] := by simpa using hne
  have := mean_min_scalar (ps.map (fun q => q.getD d 0)) (c.getD d 0) hxs
  rw [List.map_map, List.map_map] at this
  have hcoord := hmcoord d hd
  have hlen : ((ps.map (fun q => q.getD d 0)).length : ℚ) = (ps.length : ℚ) := by
    simp
  rw [List.length_map] at this
  calc (ps.map (fun p => (p.getD d 0 - m.getD d 0) ^ 2)).sum
      = (ps.map (fun p =>
          (p.getD d 0 - (ps.map (fun q => q.getD d 0)).sum / (ps.length : ℚ)) ^ 2)).sum := by
        rw [hcoord]
    _ ≤ (ps.map (fun p => (p.getD d 0 - c.getD d 0) ^ 2)).sum := by
        simpa [Function.comp] using this

/-! ## Regrouping the objective by clusters -/

/-- Unfolding `ssd` on a leading point/label pair. -/
lemma ssd_cons (p : Point) (ps : List Point) (l : Nat) (ls : List Nat)
    (cs : List Point) :
    ssd (p :: ps) (l :: ls) cs = sqDist p (cs.getD l []) + ssd ps ls cs := by
  simp [ssd]

/-- Unfolding `clusterCost` on a leading point. -/
lemma clusterCost_cons (p : Point) (ps : List Point) (c : Point) :
    clusterCost (p :: ps) c = sqDist p c + clusterCost ps c := by
  simp [clusterCost]

/-- The total within-cluster sum of squared distances regrouped as a sum of
per-cluster costs, for assignments whose labels index into the center set. -/
lemma ssd_eq_sum_clusterCost : ∀ (dataset : List Point) (a : List Nat)
    (cs : List Point), (∀ x ∈ a, x < cs.length) →
    ssd dataset a cs =
      ∑ j in Finset.range cs.length,
        clusterCost (clusterPoints dataset a j) (cs.getD j [])
  | [], a, cs, _ => by simp [ssd, clusterPoints, clusterCost]
  | p :: ps, [], cs, _ => by simp [ssd, clusterPoints, clusterCost]
  | p :: ps, l :: ls, cs, hb => by
    have ih := ssd_eq_sum_clusterCost ps ls cs
      (fun x hx => hb x (List.mem_cons_of_mem _ hx))
    have hl : l < cs.length := hb l (List.mem_cons_self _ _)
    rw [ssd_cons, ih]
    have hsplit : ∀ j ∈ Finset.range cs.length,
        clusterCost (clusterPoints (p :: ps) (l :: ls) j) (cs.getD j []) =
          clusterCost (clusterPoints ps ls j) (cs.getD j []) +
            (if l = j then sqDist p (cs.getD j []) else 0) := by
      intro j _
      rw [clusterPoints_cons]
      by_cases h : l = j
      · rw [if_pos h, if_pos h, clusterCost_cons]
        ring
      · rw [if_neg h, if_neg h, add_zero]
    rw [Finset.sum_congr rfl hsplit, Finset.sum_add_distrib,
      Finset.sum_ite_eq (Finset.range cs.length) l
        (fun j => sqDist p (cs.getD j [])),
      if_pos (Finset.mem_range.mpr hl)]
    ring

/-- Reassigning each point to its nearest center does not increase the
objective: `closest` is pointwise optimal among assignments. -/
lemma ssd_closest_le : ∀ (dataset : List Point) (a : List Nat) (cs : List Point),
    cs ≠ [] → dataset.length = a.length → (∀ x ∈ a, x < cs.length) →
    ssd dataset (closest dataset cs) cs ≤ ssd dataset a cs
  | [], _, cs, _, _, _ => by simp [ssd, closest]
  | p :: ps, [], cs, _, hlen, _ => by simp at hlen
  | p :: ps, l :: ls, cs, hcs, hlen, hb => by
    have ih := ssd_closest_le ps ls cs hcs (by simpa using hlen)
      (fun x hx => hb x (List.mem_cons_of_mem _ hx))
    have hl : l < cs.length := hb l (List.mem_cons_self _ _)
    have hclo : closest (p :: ps) cs =
        argminIdx (cs.map (fun c => sqDist p c)) :: closest ps cs := by
      simp [closest]
    rw [hclo, ssd_cons, ssd_cons]
    have hne : cs.map (fun c => sqDist p c) ≠ [] := by simpa using hcs
    have hlt := argminIdx_lt_length _ hne
    have h1 := argminIdx_le (cs.map (fun c => sqDist p c)) l (by simpa using hl)
    rw [getD_map_of_lt _ cs _ [] 0 (by simpa using hlt),
      getD_map_of_lt _ cs l [] 0 hl] at h1
    exact add_le_add h1 ih

/-! ## Properties of the iteration loop -/

/-- The loop counter advances by at most the remaining fuel, whether the loop
ends normally or in a numpy failure mode: each pass performs exactly one
`new_centers` update and one counter increment. -/
lemma kMeansLoop_count_le : ∀ (fuel : Nat) (X : List Point) (cs : List Point)
    (it : Nat), (kMeansLoop X fuel cs it).2 ≤ it + fuel
  | 0, X, cs, it => by rw [kMeansLoop]; exact Nat.le_add_right it 0
  | fuel + 1, X, cs, it => by
    rw [kMeansLoop]
    cases hsome : allSome (new_centers X cs) with
    | some moved =>
      dsimp only
      by_cases h1 : moved.length = cs.length
      · rw [if_pos h1]
        by_cases hc : sqNormDiff moved cs ≤ tolSq
        · rw [if_pos hc]
          dsimp only
          omega
        · rw [if_neg hc]
          have := kMeansLoop_count_le fuel X moved (it + 1)
          omega
      · rw [if_neg h1]
        by_cases h2 : moved.length = 1
        · rw [if_pos h2]
          by_cases hc : (cs.map (fun c => sqDist (moved.getD 0 []) c)).sum ≤ tolSq
          · rw [if_pos hc]
            dsimp only
            omega
          · rw [if_neg hc]
            have := kMeansLoop_count_le fuel X moved (it + 1)
            omega
        · rw [if_neg h2]
          dsimp only
          omega
    | none =>
      dsimp only
      by_cases h1 : (new_centers X cs).length = 1
      · rw [if_pos h1]
        dsimp only
        omega
      · rw [if_neg h1]
        dsimp only
        omega

/-! ## Claim theorems -/

/-- C1 counterexample.  `kMeans` returns the pair `(centers, labels)` and the
iteration count appears only in the printed output: the run capped at
`max_iter = 1` does not converge (its single update moved the center by
`Δ² = 4`, far above the tolerance, and its printed count equals its
`max_iter`), the run with `max_iter = 3` converges after 2 iterations, and
both return the identical value — so no caller can detect non-convergence by
observing an iteration count in the returned value, which contains none. -/
theorem kMeans_pair_counterexample :
    kMeans [[0], [4]] 1 1 (fun _ => 0) = .ok ([[2]], [0, 0]) ∧
    kMeans [[0], [4]] 1 3 (fun _ => 0) = .ok ([[2]], [0, 0]) ∧
    kMeansPrintedIterations [[0], [4]] 1 1 (fun _ => 0) = .ok 1 ∧
    kMeansPrintedIterations [[0], [4]] 1 3 (fun _ => 0) = .ok 2 ∧
    tolSq < sqNormDiff [[2]] [[0]] := by
  refine ⟨?_, ?_, ?_, ?_, ?_⟩ <;>
    norm_num [kMeans, kMeansPrintedIterations, kMeansLoop, cluster_centers, new_centers,
      mean_rows, closest, argminIdx, sqDist, clusterPoints, meanPoint, allSome, sqNormDiff,
      tolSq, List.dedup_cons_of_mem, List.dedup_cons_of_not_mem, List.range_succ,
      List.filterMap_cons]

/-- C1 (amended).  A successful `kMeans` run returns the pair
`(centers, labels)` with `labels` recomputed from the returned centers; the
iteration count is only printed — it satisfies the `max_iter` bound but is
not part of the returned value, so the claimed detection of non-convergence
from the returned value is unavailable. -/
theorem kMeans_returns_pair (X : List Point) (K maxIter : Nat)
    (draws : Nat → Nat) (cs : List Point) (labels : List Nat)
    (h : kMeans X K maxIter draws = .ok (cs, labels)) :
    labels = closest X cs ∧
    ∃ n, kMeansPrintedIterations X K maxIter draws = .ok n ∧ n ≤ maxIter := by
  rw [kMeans] at h
  cases hinit : cluster_centers X K draws with
  | error e => rw [hinit] at h; exact absurd h (by simp)
  | ok cs0 =>
    rw [hinit] at h
    dsimp only at h
    cases hloop : kMeansLoop X maxIter cs0 0 with
    | mk out n =>
      rw [hloop] at h
      cases out with
      | error e => exact absurd h (by simp)
      | ok cs1 =>
        dsimp only at h
        simp only [Except.ok.injEq, Prod.mk.injEq] at h
        obtain ⟨hcs, hlab⟩ := h
        subst hcs
        subst hlab
        refine ⟨rfl, n, ?_, ?_⟩
        · rw [kMeansPrintedIterations, hinit]
          dsimp only
          rw [hloop]
        · have hb := kMeansLoop_count_le maxIter X cs0 0
          rw [hloop] at hb
          simpa using hb

/-- C1 witness: the converging concrete run of the counterexample. -/
theorem kMeans_returns_pair_witness :
    kMeans [[0], [4]] 1 3 (fun _ => 0) = .ok ([[2]], [0, 0]) ∧
    (([0, 0] : List Nat) = closest [[0], [4]] [[2]] ∧
      ∃ n, kMeansPrintedIterations [[0], [4]] 1 3 (fun _ => 0) = .ok n ∧ n ≤ 3) := by
  have h : kMeans [[0], [4]] 1 3 (fun _ => 0) = .ok ([[2]], [0, 0]) := by
    norm_num [kMeans, kMeansLoop, cluster_centers, new_centers, mean_rows, closest,
      argminIdx, sqDist, clusterPoints, meanPoint, allSome, sqNormDiff, tolSq,
      List.dedup_cons_of_mem, List.dedup_cons_of_not_mem, List.range_succ,
      List.filterMap_cons]
  exact ⟨h, kMeans_returns_pair [[0], [4]] 1 3 (fun _ => 0) [[2]] [0, 0] h⟩

/-- C6.  `kMeans` terminates on every input (the loop is structural recursion
on the fuel `max_iter - iteration`, and every numpy failure mode is a
returned error, not divergence); the loop counter — which counts update-step
passes — never exceeds `max_iter` on any outcome, and the printed iteration
count of a successful run is at most `max_iter`. -/
theorem kMeans_iteration_bound (X : List Point) (K maxIter : Nat)
    (draws : Nat → Nat) (hpos : 0 < maxIter) :
    (∀ cs it, (kMeansLoop X maxIter cs it).2 ≤ it + maxIter) ∧
    ∀ n, kMeansPrintedIterations X K maxIter draws = .ok n → n ≤ maxIter := by
  refine ⟨fun cs it => kMeansLoop_count_le maxIter X cs it, ?_⟩
  intro n h
  rw [kMeansPrintedIterations] at h
  cases hinit : cluster_centers X K draws with
  | error e => rw [hinit] at h; exact absurd h (by simp)
  | ok cs0 =>
    rw [hinit] at h
    dsimp only at h
    cases hloop : kMeansLoop X maxIter cs0 0 with
    | mk out m =>
      rw [hloop] at h
      cases out with
      | error e => exact absurd h (by simp)
      | ok cs1 =>
        dsimp only at h
        simp only [Except.ok.injEq] at h
        subst h
        have hb := kMeansLoop_count_le maxIter X cs0 0
        rw [hloop] at hb
        simpa using hb

/-- C6 witness: the bound instantiated on the concrete converging run. -/
theorem kMeans_iteration_bound_witness :
    0 < 3 ∧
    ((∀ cs it, (kMeansLoop [[0], [4]] 3 cs it).2 ≤ it + 3) ∧
      ∀ n, kMeansPrintedIterations [[0], [4]] 1 3 (fun _ => 0) = .ok n → n ≤ 3) := by
  exact ⟨by decide, kMeans_iteration_bound [[0], [4]] 1 3 (fun _ => 0) (by decide)⟩

/-- Helper: on a non-empty dataset, `cluster_centers` always succeeds with
exactly `K` rows, each a dataset point. -/
lemma cluster_centers_ok (X : List Point) (K : Nat) (draws : Nat → Nat)
    (hM : X ≠ []) :
    ∃ cs, cluster_centers X K draws = .ok cs ∧ cs.length = K ∧
      ∀ c ∈ cs, c ∈ X := by
  have hlen : X.length ≠ 0 := by simpa using hM
  refine ⟨_, by rw [cluster_centers, if_neg hlen], by simp, ?_⟩
  intro c hc
  simp only [List.mem_map, List.mem_range] at hc
  obtain ⟨t, _, rfl⟩ := hc
  have hM0 : 0 < X.length := Nat.pos_of_ne_zero hlen
  have hidx : draws t % X.length < X.length := Nat.mod_lt _ hM0
  rw [List.getD_eq_getElem X [] hidx]
  exact List.getElem_mem hidx

/-- C3 counterexample.  `cluster_centers` performs no validation: `K = 4` on
a three-point dataset succeeds — with-replacement `np.random.choice` repeats
index 0 — and `K = 0` returns an empty center set; neither is rejected with
any error. -/
theorem cluster_centers_no_validation :
    cluster_centers [[1], [2], [3]] 4 (fun t => t) = .ok [[1], [2], [3], [1]] ∧
    cluster_centers [[9]] 0 (fun t => t) = .ok [] := by
  constructor <;> norm_num [cluster_centers, List.range_succ]

/-- C3 (amended).  `cluster_centers` rejects nothing: on a non-empty dataset
it accepts `K = 0` (returning an empty center set) and any `K > M`
(returning exactly `K` rows drawn with replacement, each a dataset point);
no `InvalidConfiguration` rejection exists in the program — its only failure
is `np.random.choice` raising on an empty dataset. -/
theorem cluster_centers_accepts_any_K (X : List Point) (K : Nat)
    (draws : Nat → Nat) (hM : X ≠ []) :
    cluster_centers X 0 draws = .ok [] ∧
    (X.length < K →
      ∃ cs, cluster_centers X K draws = .ok cs ∧ cs.length = K ∧
        ∀ c ∈ cs, c ∈ X) := by
  constructor
  · have hlen : X.length ≠ 0 := by simpa using hM
    rw [cluster_centers, if_neg hlen]
    simp
  · intro _
    exact cluster_centers_ok X K draws hM

/-- C3 witness: `K = 4` on the three-point dataset (where `M < K`). -/
theorem cluster_centers_accepts_any_K_witness :
    ([[1], [2], [3]] : List Point) ≠ [] ∧
    (cluster_centers [[1], [2], [3]] 0 (fun t => t) = .ok [] ∧
      (([[1], [2], [3]] : List Point).length < 4 →
        ∃ cs, cluster_centers [[1], [2], [3]] 4 (fun t => t) = .ok cs ∧
          cs.length = 4 ∧ ∀ c ∈ cs, c ∈ ([[1], [2], [3]] : List Point))) := by
  exact ⟨by simp, cluster_centers_accepts_any_K [[1], [2], [3]] 4 (fun t => t) (by simp)⟩

/-- C8.  For every dataset of `M` points, every `K` with `1 ≤ K ≤ M`, and
every sequence of random index draws, `cluster_centers` succeeds and returns
exactly `K` points, each an exact copy of some dataset point. -/
theorem cluster_centers_valid (X : List Point) (K : Nat) (draws : Nat → Nat)
    (h1 : 1 ≤ K) (h2 : K ≤ X.length) :
    ∃ cs, cluster_centers X K draws = .ok cs ∧ cs.length = K ∧
      ∀ c ∈ cs, c ∈ X := by
  refine cluster_centers_ok X K draws ?_
  intro hnil
  rw [hnil] at h2
  simp at h2
  omega

/-- C8 witness: a three-point dataset, `K = 2`, identity draws. -/
theorem cluster_centers_valid_witness :
    (1 : Nat) ≤ 2 ∧ (2 : Nat) ≤ ([[1], [2], [3]] : List Point).length ∧
    ∃ cs, cluster_centers [[1], [2], [3]] 2 (fun t => t) = .ok cs ∧
      cs.length = 2 ∧ ∀ c ∈ cs, c ∈ ([[1], [2], [3]] : List Point) := by
  exact ⟨by decide, by decide,
    cluster_centers_valid [[1], [2], [3]] 2 (fun t => t) (by decide) (by decide)⟩

/-- C4.  For every dataset of `M` points and every non-empty center set,
`closest` returns an array of length `M` whose every entry lies in `[0, K)`;
entry `i` is the index of a center minimizing the (squared, equivalently
plain) Euclidean distance to point `i`, and when several centers attain the
minimum the lowest index is chosen (any center attaining the minimal distance
has an index at least the chosen one). -/
theorem closest_spec (dataset cs : List Point) (hcs : cs ≠ []) :
    (closest dataset cs).length = dataset.length ∧
    ∀ i, i < dataset.length →
      (closest dataset cs).getD i 0 < cs.length ∧
      (∀ j, j < cs.length →
        sqDist (dataset.getD i []) (cs.getD ((closest dataset cs).getD i 0) []) ≤
          sqDist (dataset.getD i []) (cs.getD j [])) ∧
      (∀ j, j < cs.length →
        sqDist (dataset.getD i []) (cs.getD j []) =
          sqDist (dataset.getD i []) (cs.getD ((closest dataset cs).getD i 0) []) →
        (closest dataset cs).getD i 0 ≤ j) := by
  refine ⟨closest_length dataset cs, ?_⟩
  intro i hi
  rw [closest_getD dataset cs i hi]
  set p := dataset.getD i []
  set dists := cs.map (fun c => sqDist p c) with hdists
  have hne : dists ≠ [] := by simpa [hdists] using hcs
  have hlen : dists.length = cs.length := by simp [hdists]
  have hlt : argminIdx dists < cs.length := hlen ▸ argminIdx_lt_length dists hne
  have hval : ∀ j, j < cs.length → dists.getD j 0 = sqDist p (cs.getD j []) := by
    intro j hj
    rw [hdists, getD_map_of_lt _ cs j [] 0 hj]
  refine ⟨hlt, ?_, ?_⟩
  · intro j hj
    rw [← hval _ hlt, ← hval j hj]
    exact argminIdx_le dists j (hlen ▸ hj)
  · intro j hj heq
    by_contra hcon
    push_neg at hcon
    have := argminIdx_first dists j hcon
    rw [hval _ hlt, hval j hj] at this
    rw [heq] at this
    exact lt_irrefl _ this

/-- C4 witness: two points, three centers, with an exact tie for the second
point between centers 0 and 2 resolved to index 0. -/
theorem closest_spec_witness :
    ([[0], [4], [8]] : List Point) ≠ [] ∧
    ((closest [[1], [9]] [[0], [4], [8]]).length = ([[1], [9]] : List Point).length ∧
    ∀ i, i < ([[1], [9]] : List Point).length →
      (closest [[1], [9]] [[0], [4], [8]]).getD i 0 < ([[0], [4], [8]] : List Point).length ∧
      (∀ j, j < ([[0], [4], [8]] : List Point).length →
        sqDist (([[1], [9]] : List Point).getD i [])
            (([[0], [4], [8]] : List Point).getD
              ((closest [[1], [9]] [[0], [4], [8]]).getD i 0) []) ≤
          sqDist (([[1], [9]] : List Point).getD i [])
            (([[0], [4], [8]] : List Point).getD j [])) ∧
      (∀ j, j < ([[0], [4], [8]] : List Point).length →
        sqDist (([[1], [9]] : List Point).getD i [])
            (([[0], [4], [8]] : List Point).getD j []) =
          sqDist (([[1], [9]] : List Point).getD i [])
            (([[0], [4], [8]] : List Point).getD
              ((closest [[1], [9]] [[0], [4], [8]]).getD i 0) []) →
        (closest [[1], [9]] [[0], [4], [8]]).getD i 0 ≤ j)) := by
  exact ⟨by simp, closest_spec [[1], [9]] [[0], [4], [8]] (by simp)⟩

/-- C2 counterexample.  On the two-point dataset against three centers, the
middle center attracts no point: `new_centers` silently returns the reshaped
two-row array `[some [0], none]` — fewer than `K = 3` rows, one of them the
NaN row, with no reported condition of any kind — and the very next loop pass
crashes with the broadcasting `ValueError` instead of propagating a
`DegenerateCluster` report. -/
theorem new_centers_silent_counterexample :
    new_centers [[0], [10]] [[0], [5], [10]] = [some [0], none] ∧
    (new_centers [[0], [10]] [[0], [5], [10]]).length < 3 ∧
    (kMeansLoop [[0], [10]] 1 [[0], [5], [10]] 0).1 = .error .valueError := by
  refine ⟨?_, ?_, ?_⟩ <;>
    norm_num [kMeansLoop, new_centers, mean_rows, closest, argminIdx, sqDist,
      clusterPoints, meanPoint, allSome, List.dedup_cons_of_mem,
      List.dedup_cons_of_not_mem, List.range_succ, List.filterMap_cons]

/-- C2 (amended).  When some cluster index below `K` receives zero assigned
points, `new_centers` silently returns fewer than `K` rows (the number of
distinct labels, with NaN rows for missing low labels) — no condition is
reported by `new_centers` — and whenever more than one row remains, the
enclosing loop's `moved - centers` raises the broadcasting `ValueError`
(a crash) at its next pass. -/
theorem new_centers_silent_shrink (X cs : List Point) (j : Nat)
    (hcs : cs ≠ []) (hj : j < cs.length)
    (hempty : clusterPoints X (closest X cs) j = []) :
    (new_centers X cs).length < cs.length ∧
    (1 < (new_centers X cs).length →
      ∀ fuel it, (kMeansLoop X (fuel + 1) cs it).1 = .error .valueError) := by
  have hbound : ∀ x ∈ closest X cs, x < cs.length := closest_entry_lt X cs hcs
  have halen : (closest X cs).length ≤ X.length := by rw [closest_length]
  have hmiss : j ∉ closest X cs :=
    (clusterPoints_nil_iff X (closest X cs) j halen).mp hempty
  have hded : (closest X cs).dedup.length < cs.length :=
    dedup_length_lt (closest X cs) cs.length j hbound hj hmiss
  have hlt : (new_centers X cs).length < cs.length := by
    rw [new_centers, mean_rows_length]
    exact hded
  refine ⟨hlt, ?_⟩
  intro h2 fuel it
  rw [kMeansLoop]
  cases hsome : allSome (new_centers X cs) with
  | some moved =>
    dsimp only
    have hmlen : moved.length = (new_centers X cs).length :=
      allSome_length _ moved hsome
    rw [if_neg (by omega), if_neg (by omega)]
  | none =>
    dsimp only
    rw [if_neg (by omega)]

/-- C2 witness: the concrete degenerate configuration, with two surviving
rows. -/
theorem new_centers_silent_shrink_witness :
    ([[0], [5], [10]] : List Point) ≠ [] ∧ 1 < ([[0], [5], [10]] : List Point).length ∧
    clusterPoints [[0], [10]] (closest [[0], [10]] [[0], [5], [10]]) 1 = [] ∧
    ((new_centers [[0], [10]] [[0], [5], [10]]).length <
        ([[0], [5], [10]] : List Point).length ∧
      (1 < (new_centers [[0], [10]] [[0], [5], [10]]).length →
        ∀ fuel it, (kMeansLoop [[0], [10]] (fuel + 1) [[0], [5], [10]] it).1 =
          .error .valueError)) := by
  have hempty : clusterPoints [[0], [10]] (closest [[0], [10]] [[0], [5], [10]]) 1 = [] := by
    norm_num [clusterPoints, closest, argminIdx, sqDist, List.filterMap_cons]
  exact ⟨by simp, by simp, hempty,
    new_centers_silent_shrink [[0], [10]] [[0], [5], [10]] 1 (by simp) (by simp) hempty⟩

/-- C10.  When the induced assignment uses distinct labels that are not an
initial segment (concretely: labels `{0, 2}` because the middle of three
centers attracts no point), `new_centers` computes the mean of an empty
selection for the missing low label and the returned array contains an
undefined NaN row (`none`) instead of the populated clusters' means; in
general a label below the distinct-label count that never occurs yields a
NaN row, and the rows are exactly the populated clusters' means when the
distinct labels form an initial segment. -/
theorem new_centers_undefined_row :
    new_centers [[0], [10]] [[0], [5], [10]] = [some [0], none] ∧
    (∀ (X : List Point) (c : List Nat) (k : Nat), c.length ≤ X.length →
      k < c.dedup.length → k ∉ c → (mean_rows X c).getD k none = none) ∧
    (∀ (X : List Point) (c : List Nat), c.length ≤ X.length →
      (∀ k, k < c.dedup.length → k ∈ c) →
      ∀ k, k < c.dedup.length →
        clusterPoints X c k ≠ [] ∧
        (mean_rows X c).getD k none = meanPoint (clusterPoints X c k)) := by
  refine ⟨?_, ?_, ?_⟩
  · norm_num [new_centers, mean_rows, closest, argminIdx, sqDist, clusterPoints,
      meanPoint, List.dedup_cons_of_mem, List.dedup_cons_of_not_mem,
      List.range_succ, List.filterMap_cons]
  · intro X c k hlen hk hmiss
    rw [mean_rows_getD X c k hk, (clusterPoints_nil_iff X c k hlen).mpr hmiss]
    rfl
  · intro X c hlen hall k hk
    refine ⟨?_, mean_rows_getD X c k hk⟩
    rw [Ne, clusterPoints_nil_iff X c k hlen]
    simpa using hall k hk

/-- C10 witness: the missing low label 1 of the label array `[0, 2]`
produces a NaN row. -/
theorem new_centers_undefined_row_witness :
    (mean_rows [[0], [10]] [0, 2]).getD 1 none = none := by
  refine new_centers_undefined_row.2.1 [[0], [10]] [0, 2] 1 (by simp) ?_ (by simp)
  norm_num [List.dedup_cons_of_mem, List.dedup_cons_of_not_mem]

/-- C5.  For every dataset of common dimension `D` and every center set whose
induced assignment populates all `K` cluster indices, `new_centers` returns
exactly `K` rows, and row `j` is defined and equals the exact componentwise
arithmetic mean of the points assigned to cluster `j`. -/
theorem new_centers_mean (X cs : List Point) (D : Nat) (hcs : cs ≠ [])
    (hdim : ∀ p ∈ X, p.length = D)
    (hpop : ∀ j, j < cs.length → j ∈ closest X cs) :
    (new_centers X cs).length = cs.length ∧
    ∀ j, j < cs.length → ∃ m, (new_centers X cs).getD j none = some m ∧
      m.length = D ∧
      ∀ d, d < D → m.getD d 0 =
        ((clusterPoints X (closest X cs) j).map (fun q => q.getD d 0)).sum /
          ((clusterPoints X (closest X cs) j).length : ℚ) := by
  have hbound : ∀ x ∈ closest X cs, x < cs.length := closest_entry_lt X cs hcs
  have hded : (closest X cs).dedup.length = cs.length :=
    dedup_length_eq (closest X cs) cs.length hbound hpop
  have halen : (closest X cs).length ≤ X.length := by rw [closest_length]
  refine ⟨by rw [new_centers, mean_rows_length, hded], ?_⟩
  intro j hj
  have hrow : (new_centers X cs).getD j none =
      meanPoint (clusterPoints X (closest X cs) j) := by
    rw [new_centers, mean_rows_getD X (closest X cs) j (by omega)]
  have hne : clusterPoints X (closest X cs) j ≠ [] := by
    rw [Ne, clusterPoints_nil_iff X (closest X cs) j halen]
    simpa using hpop j hj
  have hdim' : ∀ p ∈ clusterPoints X (closest X cs) j, p.length = D :=
    fun p hp => hdim p (clusterPoints_subset X (closest X cs) j p hp)
  obtain ⟨m, hm, hmlen, hmcoord⟩ := meanPoint_spec _ D hne hdim'
  exact ⟨m, by rw [hrow, hm], hmlen, hmcoord⟩

/-- C5 witness: the four-point dataset with two populated clusters (the
spec's hand-built example, expected means `(0,1)` and `(10,1)`). -/
theorem new_centers_mean_witness :
    ([[0, 0], [10, 2]] : List Point) ≠ [] ∧
    (∀ p ∈ ([[0, 0], [0, 2], [10, 0], [10, 2]] : List Point), p.length = 2) ∧
    (∀ j, j < ([[0, 0], [10, 2]] : List Point).length →
      j ∈ closest [[0, 0], [0, 2], [10, 0], [10, 2]] [[0, 0], [10, 2]]) ∧
    ((new_centers [[0, 0], [0, 2], [10, 0], [10, 2]] [[0, 0], [10, 2]]).length =
        ([[0, 0], [10, 2]] : List Point).length ∧
      ∀ j, j < ([[0, 0], [10, 2]] : List Point).length →
        ∃ m, (new_centers [[0, 0], [0, 2], [10, 0], [10, 2]]
            [[0, 0], [10, 2]]).getD j none = some m ∧
          m.length = 2 ∧
          ∀ d, d < 2 → m.getD d 0 =
            ((clusterPoints [[0, 0], [0, 2], [10, 0], [10, 2]]
                (closest [[0, 0], [0, 2], [10, 0], [10, 2]] [[0, 0], [10, 2]]) j).map
                (fun q => q.getD d 0)).sum /
              ((clusterPoints [[0, 0], [0, 2], [10, 0], [10, 2]]
                (closest [[0, 0], [0, 2], [10, 0], [10, 2]] [[0, 0], [10, 2]]) j).length : ℚ)) := by
  have hclo : closest [[0, 0], [0, 2], [10, 0], [10, 2]] [[0, 0], [10, 2]] =
      [0, 0, 1, 1] := by
    norm_num [closest, argminIdx, sqDist]
  have hpop : ∀ j, j < ([[0, 0], [10, 2]] : List Point).length →
      j ∈ closest [[0, 0], [0, 2], [10, 0], [10, 2]] [[0, 0], [10, 2]] := by
    rw [hclo]
    decide
  exact ⟨by simp, by decide, hpop,
    new_centers_mean [[0, 0], [0, 2], [10, 0], [10, 2]] [[0, 0], [10, 2]] 2
      (by simp) (by decide) hpop⟩

/-- C9.  On an already-converged center set — the recompute step moves the
centers by `Δ = 0` — running `assign`, then `recompute_centers`, then
`assign` again yields an assignment identical to the first: a vanishing
movement between center arrays of matching shape forces the recomputed
centers to equal the old ones. -/
theorem assign_idempotent (X cs cs' : List Point)
    (hsome : allSome (new_centers X cs) = some cs')
    (hlen : cs'.length = cs.length)
    (hdim : ∀ i, i < cs.length → (cs'.getD i []).length = (cs.getD i []).length)
    (hconv : sqNormDiff cs' cs = 0) :
    cs' = cs ∧ closest X cs' = closest X cs := by
  have heq : cs' = cs := sqNormDiff_eq_zero cs' cs hlen hdim hconv
  exact ⟨heq, by rw [heq]⟩

/-- C9 witness: a converged two-center configuration on the four-point
dataset. -/
theorem assign_idempotent_witness :
    allSome (new_centers [[0, 0], [0, 2], [10, 0], [10, 2]] [[5, 0], [5, 2]]) =
      some [[5, 0], [5, 2]] ∧
    ([[5, 0], [5, 2]] : List Point).length = ([[5, 0], [5, 2]] : List Point).length ∧
    sqNormDiff [[5, 0], [5, 2]] [[5, 0], [5, 2]] = 0 ∧
    (([[5, 0], [5, 2]] : List Point) = [[5, 0], [5, 2]] ∧
      closest [[0, 0], [0, 2], [10, 0], [10, 2]] [[5, 0], [5, 2]] =
        closest [[0, 0], [0, 2], [10, 0], [10, 2]] [[5, 0], [5, 2]]) := by
  have hsome : allSome (new_centers [[0, 0], [0, 2], [10, 0], [10, 2]]
      [[5, 0], [5, 2]]) = some [[5, 0], [5, 2]] := by
    norm_num [allSome, new_centers, mean_rows, closest, argminIdx, sqDist,
      clusterPoints, meanPoint, List.dedup_cons_of_mem, List.dedup_cons_of_not_mem,
      List.range_succ, List.filterMap_cons]
  have hconv : sqNormDiff [[5, 0], [5, 2]] [[5, 0], [5, 2]] = 0 := by
    norm_num [sqNormDiff, sqDist]
  exact ⟨hsome, rfl, hconv,
    assign_idempotent [[0, 0], [0, 2], [10, 0], [10, 2]] [[5, 0], [5, 2]]
      [[5, 0], [5, 2]] hsome rfl (fun i _ => rfl) hconv⟩

/-- C7.  For every dataset and centers for which the Lloyd update step
(assign to nearest center, then recompute means) yields `K` non-empty
clusters, the total within-cluster sum of squared distances does not
increase: recomputing the means does not increase it under the current
assignment, and reassigning to the new centers does not increase it further —
so the objective computed after each iteration's recompute step is
non-increasing across iterations. -/
theorem lloyd_step_monotone (X cs cs' : List Point) (D : Nat)
    (hcs : cs ≠ [])
    (hdimd : ∀ p ∈ X, p.length = D)
    (hdimc : ∀ c ∈ cs, c.length = D)
    (hpop : ∀ j, j < cs.length → j ∈ closest X cs)
    (hstep : allSome (new_centers X cs) = some cs') :
    ssd X (closest X cs) cs' ≤ ssd X (closest X cs) cs ∧
    ssd X (closest X cs') cs' ≤ ssd X (closest X cs) cs' := by
  have hbound : ∀ x ∈ closest X cs, x < cs.length := closest_entry_lt X cs hcs
  have hded : (closest X cs).dedup.length = cs.length :=
    dedup_length_eq (closest X cs) cs.length hbound hpop
  have hnewlen : (new_centers X cs).length = cs.length := by
    rw [new_centers, mean_rows_length, hded]
  have hlen' : cs'.length = cs.length := by
    rw [← hnewlen]
    exact allSome_length _ cs' hstep
  have halen : (closest X cs).length ≤ X.length := by rw [closest_length]
  have hrows : ∀ j, j < cs.length →
      meanPoint (clusterPoints X (closest X cs) j) = some (cs'.getD j []) := by
    intro j hj
    have h1 : (new_centers X cs).getD j none =
        meanPoint (clusterPoints X (closest X cs) j) := by
      rw [new_centers, mean_rows_getD X (closest X cs) j (by omega)]
    rw [← h1]
    exact allSome_getD _ cs' hstep j (by omega)
  have hpercluster : ∀ j, j < cs.length →
      clusterCost (clusterPoints X (closest X cs) j) (cs'.getD j []) ≤
        clusterCost (clusterPoints X (closest X cs) j) (cs.getD j []) := by
    intro j hj
    have hne : clusterPoints X (closest X cs) j ≠ [] := by
      rw [Ne, clusterPoints_nil_iff X (closest X cs) j halen]
      simpa using hpop j hj
    have hdim' : ∀ p ∈ clusterPoints X (closest X cs) j, p.length = D :=
      fun p hp => hdimd p (clusterPoints_subset X (closest X cs) j p hp)
    have hcj : (cs.getD j []).length = D := by
      rw [List.getD_eq_getElem cs [] hj]
      exact hdimc _ (List.getElem_mem hj)
    exact clusterCost_mean_le _ _ D hne hdim' hcj _ (hrows j hj)
  constructor
  · rw [ssd_eq_sum_clusterCost X (closest X cs) cs hbound,
      ssd_eq_sum_clusterCost X (closest X cs) cs'
        (fun x hx => hlen' ▸ hbound x hx)]
    rw [hlen']
    exact Finset.sum_le_sum (fun j hj => hpercluster j (Finset.mem_range.mp hj))
  · have hcs' : cs' ≠ [] := by
      intro hnil
      rw [hnil] at hlen'
      exact hcs (List.length_eq_zero.mp hlen'.symm)
    exact ssd_closest_le X (closest X cs) cs' hcs'
      (closest_length X cs).symm (fun x hx => hlen' ▸ hbound x hx)

/-- C7 witness: the four-point dataset with two populated clusters; the
update step moves the centers `(0,0), (10,2)` to the cluster means
`(0,1), (10,1)`. -/
theorem lloyd_step_monotone_witness :
    ([[0, 0], [10, 2]] : List Point) ≠ [] ∧
    (∀ p ∈ ([[0, 0], [0, 2], [10, 0], [10, 2]] : List Point), p.length = 2) ∧
    (∀ c ∈ ([[0, 0], [10, 2]] : List Point), c.length = 2) ∧
    (∀ j, j < ([[0, 0], [10, 2]] : List Point).length →
      j ∈ closest [[0, 0], [0, 2], [10, 0], [10, 2]] [[0, 0], [10, 2]]) ∧
    allSome (new_centers [[0, 0], [0, 2], [10, 0], [10, 2]] [[0, 0], [10, 2]]) =
      some [[0, 1], [10, 1]] ∧
    (ssd [[0, 0], [0, 2], [10, 0], [10, 2]]
        (closest [[0, 0], [0, 2], [10, 0], [10, 2]] [[0, 0], [10, 2]])
        [[0, 1], [10, 1]] ≤
      ssd [[0, 0], [0, 2], [10, 0], [10, 2]]
        (closest [[0, 0], [0, 2], [10, 0], [10, 2]] [[0, 0], [10, 2]])
        [[0, 0], [10, 2]] ∧
    ssd [[0, 0], [0, 2], [10, 0], [10, 2]]
        (closest [[0, 0], [0, 2], [10, 0], [10, 2]] [[0, 1], [10, 1]])
        [[0, 1], [10, 1]] ≤
      ssd [[0, 0], [0, 2], [10, 0], [10, 2]]
        (closest [[0, 0], [0, 2], [10, 0], [10, 2]] [[0, 0], [10, 2]])
        [[0, 1], [10, 1]]) := by
  have hclo : closest [[0, 0], [0, 2], [10, 0], [10, 2]] [[0, 0], [10, 2]] =
      [0, 0, 1, 1] := by
    norm_num [closest, argminIdx, sqDist]
  have hpop : ∀ j, j < ([[0, 0], [10, 2]] : List Point).length →
      j ∈ closest [[0, 0], [0, 2], [10, 0], [10, 2]] [[0, 0], [10, 2]] := by
    rw [hclo]
    decide
  have hstep : allSome (new_centers [[0, 0], [0, 2], [10, 0], [10, 2]]
      [[0, 0], [10, 2]]) = some [[0, 1], [10, 1]] := by
    norm_num [allSome, new_centers, mean_rows, closest, argminIdx, sqDist,
      clusterPoints, meanPoint, List.dedup_cons_of_mem, List.dedup_cons_of_not_mem,
      List.range_succ, List.filterMap_cons]
  exact ⟨by simp, by decide, by decide, hpop, hstep,
    lloyd_step_monotone [[0, 0], [0, 2], [10, 0], [10, 2]] [[0, 0], [10, 2]]
      [[0, 1], [10, 1]] 2 (by simp) (by decide) (by decide) hpop hstep⟩

end KMeansModel
